import Mathlib

/-!
# Verification of the zksync.js numeric codec and canonical serialization

Shallow embedding of the numeric-codec / serialization core of
`src/signer.ts` and `src/utils.ts` (packaged here as `src/src/signer.ts`).

Conventions of the embedding:
* A Node `Buffer` is a `List Nat` of byte values (each byte `< 256` for
  buffers produced by the code).
* `BN` (bn.js arbitrary-precision integers) is `Nat`: every claim ranges
  over non-negative integers only.
* JavaScript strings are `List Char`.
* A function that can `throw` returns `Except SerializeError _`; the
  error constructors name the distinct `Error` messages thrown by the
  source.
-/

/-- The distinct `throw new Error(...)` failure cases of the serialization
core, one constructor per message. -/
inductive SerializeError where
  /-- "Float unpacking, incorrect input length" (`floatToInteger`). -/
  | floatUnpackingBadLength
  /-- "wrong number of bits to pack" (`bitsIntoBytesInBEOrder`). -/
  | wrongNumberOfBits
  /-- "Integer is too big" (`integerToFloat`). -/
  | integerTooBig
  /-- "Transaction Amount is not packable" (`packAmountChecked`). -/
  | amountNotPackable
  /-- "Fee Amount is not packable" (`packFeeChecked`). -/
  | feeNotPackable
  /-- "ETH address must start with 0x and Sync address start with sync:". -/
  | badAddressPrefix
  /-- "Address must be 20 bytes long" (`serializeAddress`). -/
  | badAddressLength
  /-- "Negative tokenId" (`serializeTokenId`). -/
  | negativeTokenId
  /-- "TokenId is too big" (`serializeTokenId`). -/
  | tokenIdTooBig
  /-- "Negative nonce" (`serializeNonce`). -/
  | negativeNonce
  /-- `Buffer.writeUInt32BE` range check (`serializeNonce`). -/
  | nonceOutOfRange
  /-- bn.js `toArrayLike` length check (`serializeAmountFull`). -/
  | amountExceeds16Bytes
  deriving DecidableEq

/-- Value of a byte list read as a single big-endian integer; models
`new BN(floatBytes, 16, "be")` applied to a `Buffer`. -/
def beVal (bs : List Nat) : Nat :=
  bs.foldl (fun acc b => acc * 256 + b) 0

/-- The accumulation loops of `floatToInteger`: the sum of
`2 ^ i` over the indices `i < len` such that bit `start + i` of `v` is
set (the source walks `i` upward keeping a running power of two). -/
def bitsLoopAcc (v start : Nat) : Nat → Nat
  | 0 => 0
  | len + 1 => bitsLoopAcc v start len + (if v.testBit (start + len) then 2 ^ len else 0)

/-- `floatToInteger(floatBytes, expBits, mantissaBits, expBaseNumber)`:
reads the buffer as a big-endian integer, takes the low `expBits` bits
(LSB-first) as the exponent, the next `mantissaBits` bits as the
mantissa, and returns `expBaseNumber ^ exponent * mantissa`. -/
def floatToInteger (floatBytes : List Nat)
    (expBits mantissaBits expBaseNumber : Nat) : Except SerializeError Nat :=
  if floatBytes.length * 8 ≠ mantissaBits + expBits then
    .error .floatUnpackingBadLength
  else
    let floatHolder := beVal floatBytes
    let exponent := bitsLoopAcc floatHolder 0 expBits
    let mantissa := bitsLoopAcc floatHolder expBits mantissaBits
    .ok (expBaseNumber ^ exponent * mantissa)

/-- One byte of `bitsIntoBytesInBEOrder`: the source ORs `0x80` for the
first bit down to `0x01` for the eighth; the bit positions are disjoint,
so the ORs are written as a sum. -/
def byteFromBits (b0 b1 b2 b3 b4 b5 b6 b7 : Bool) : Nat :=
  (if b0 then 128 else 0) + (if b1 then 64 else 0) +
  (if b2 then 32 else 0) + (if b3 then 16 else 0) +
  (if b4 then 8 else 0) + (if b5 then 4 else 0) +
  (if b6 then 2 else 0) + (if b7 then 1 else 0)

/-- `bitsIntoBytesInBEOrder(bits)`: packs 8 bits per byte,
most-significant-bit first; fails unless the bit count is a multiple
of 8 (the source checks `bits.length % 8 != 0` up front, here rendered
by the incomplete final chunk). -/
def bitsIntoBytesInBEOrder : List Bool → Except SerializeError (List Nat)
  | [] => .ok []
  | b0 :: b1 :: b2 :: b3 :: b4 :: b5 :: b6 :: b7 :: rest =>
    match bitsIntoBytesInBEOrder rest with
    | .ok bs => .ok (byteFromBits b0 b1 b2 b3 b4 b5 b6 b7 :: bs)
    | .error e => .error e
  | _ => .error .wrongNumberOfBits

/-- The `while (mantissa > max_mantissa)` loop of `integerToFloat`,
with an explicit fuel argument so the recursion is structural.  The loop
body divides the mantissa by `exp_base` and bumps the exponent.  For any
input passing the overflow check of `integerToFloat` the loop runs at
most `2 ^ exp_bits - 1` times, so the fuel `2 ^ exp_bits` supplied there
is never exhausted (proved in `divideUntilFits_spec`). -/
def divideUntilFits (exp_base max_mantissa : Nat) :
    Nat → Nat → Nat → Nat × Nat
  | 0, mantissa, exponent => (mantissa, exponent)
  | fuel + 1, mantissa, exponent =>
    if max_mantissa < mantissa then
      divideUntilFits exp_base max_mantissa fuel (mantissa / exp_base) (exponent + 1)
    else
      (mantissa, exponent)

/-- The bit list pushed by the encoding loops of `integerToFloat`:
`n` bits of `v`, least-significant first. -/
def natBitsLE (n v : Nat) : List Bool :=
  (List.range n).map (fun i => v.testBit i)

/-- `integerToFloat(integer, exp_bits, mantissa_bits, exp_base)`:
overflow check against `maxMantissa * 10 ^ (2 ^ exp_bits - 1)` (the source
hard-codes base 10 here even though division uses `exp_base`), repeated
division of the mantissa by `exp_base`, emission of the exponent then the
mantissa LSB-first, and finally
`Buffer.from(bitsIntoBytesInBEOrder(encoding.reverse()).reverse())`.
The JavaScript `(1 << exp_bits) - 1` is modelled as `2 ^ exp_bits - 1`,
exact for `exp_bits < 32` (the repository only uses `exp_bits = 5`). -/
def integerToFloat (integer exp_bits mantissa_bits exp_base : Nat) :
    Except SerializeError (List Nat) :=
  let max_exponent := 10 ^ (2 ^ exp_bits - 1)
  let max_mantissa := 2 ^ mantissa_bits - 1
  if max_mantissa * max_exponent < integer then
    .error .integerTooBig
  else
    let p := divideUntilFits exp_base max_mantissa (2 ^ exp_bits) integer 0
    let encoding := natBitsLE exp_bits p.2 ++ natBitsLE mantissa_bits p.1
    match bitsIntoBytesInBEOrder encoding.reverse with
    | .ok bytes => .ok bytes.reverse
    | .error e => .error e

/-- The per-byte transform of `reverseBits` (swap nibbles, swap bit
pairs, swap adjacent bits).  Its result is produced by `Buffer.map` but
never stored back, so it does not affect the returned buffer. -/
def bitReverseByte (b : Nat) : Nat :=
  let b1 := ((b &&& 0xf0) >>> 4) ||| ((b &&& 0x0f) <<< 4)
  let b2 := ((b1 &&& 0xcc) >>> 2) ||| ((b1 &&& 0x33) <<< 2)
  ((b2 &&& 0xaa) >>> 1) ||| ((b2 &&& 0x55) <<< 1)

/-- `reverseBits(buffer)` with the call's effect on its argument made
explicit.  `buffer.reverse()` reverses the argument **in place** and
returns it; `Buffer.from` then copies it, and the subsequent
`reversed.map(...)` allocates a fresh buffer that is discarded.  The
first component is the returned buffer, the second is the contents of
the argument after the call. -/
def reverseBitsTracked (buffer : List Nat) : List Nat × List Nat :=
  let bufferAfterInPlaceReverse := buffer.reverse
  let reversed := bufferAfterInPlaceReverse
  let _discardedMap := reversed.map bitReverseByte
  (reversed, bufferAfterInPlaceReverse)

/-- The value returned by `reverseBits(buffer)`. -/
def reverseBits (buffer : List Nat) : List Nat :=
  (reverseBitsTracked buffer).1

/-- Amount packing parameters: 5 exponent bits, 35 mantissa bits. -/
def AMOUNT_EXPONENT_BIT_WIDTH : Nat := 5
/-- Amount mantissa width. -/
def AMOUNT_MANTISSA_BIT_WIDTH : Nat := 35
/-- Fee exponent width. -/
def FEE_EXPONENT_BIT_WIDTH : Nat := 5
/-- Fee mantissa width. -/
def FEE_MANTISSA_BIT_WIDTH : Nat := 11

/-- `packAmount(amount)`. -/
def packAmount (amount : Nat) : Except SerializeError (List Nat) :=
  (integerToFloat amount AMOUNT_EXPONENT_BIT_WIDTH AMOUNT_MANTISSA_BIT_WIDTH 10).map
    reverseBits

/-- `packFee(amount)`. -/
def packFee (amount : Nat) : Except SerializeError (List Nat) :=
  (integerToFloat amount FEE_EXPONENT_BIT_WIDTH FEE_MANTISSA_BIT_WIDTH 10).map
    reverseBits

/-- `closestPackableTransactionAmount(amount)`: packs and unpacks the
amount, returning the closest packed value. -/
def closestPackableTransactionAmount (amount : Nat) : Except SerializeError Nat := do
  let packedAmount ← packAmount amount
  floatToInteger packedAmount AMOUNT_EXPONENT_BIT_WIDTH AMOUNT_MANTISSA_BIT_WIDTH 10

/-- `closestPackableTransactionFee(fee)`. -/
def closestPackableTransactionFee (fee : Nat) : Except SerializeError Nat := do
  let packedFee ← packFee fee
  floatToInteger packedFee FEE_EXPONENT_BIT_WIDTH FEE_MANTISSA_BIT_WIDTH 10

/-- `packAmountChecked(amount)`: throws unless
`closestPackableTransactionAmount(amount)` equals `amount`. -/
def packAmountChecked (amount : Nat) : Except SerializeError (List Nat) := do
  let closest ← closestPackableTransactionAmount amount
  if closest ≠ amount then
    .error .amountNotPackable
  else
    packAmount amount

/-- `packFeeChecked(amount)`. -/
def packFeeChecked (amount : Nat) : Except SerializeError (List Nat) := do
  let closest ← closestPackableTransactionFee amount
  if closest ≠ amount then
    .error .feeNotPackable
  else
    packFee amount

/-- `MAX_NUMBER_OF_TOKENS`. -/
def MAX_NUMBER_OF_TOKENS : Nat := 4096

/-- One hex nibble of Node `Buffer.from(str, "hex")`: digits, lowercase
and uppercase letters are accepted (character code comparisons). -/
def hexDigitVal? (c : Char) : Option Nat :=
  let n := c.toNat
  if 48 ≤ n ∧ n ≤ 57 then some (n - 48)
  else if 97 ≤ n ∧ n ≤ 102 then some (n - 87)
  else if 65 ≤ n ∧ n ≤ 70 then some (n - 55)
  else none

/-- Node `Buffer.from(str, "hex")`: consumes hex-digit pairs left to
right; decoding stops at the first incomplete or invalid pair, keeping
the bytes decoded so far. -/
def decodeHex : List Char → List Nat
  | c1 :: c2 :: rest =>
    match hexDigitVal? c1, hexDigitVal? c2 with
    | some hi, some lo => (16 * hi + lo) :: decodeHex rest
    | _, _ => []
  | _ => []

/-- `serializeAddress(address)`: strip the `0x` or `sync:` prefix
(absence of both throws), hex-decode the remainder, and require exactly
20 bytes. -/
def serializeAddress (address : List Char) : Except SerializeError (List Nat) :=
  match address with
  | '0' :: 'x' :: prefixlessAddress =>
    let addressBytes := decodeHex prefixlessAddress
    if addressBytes.length ≠ 20 then .error .badAddressLength
    else .ok addressBytes
  | 's' :: 'y' :: 'n' :: 'c' :: ':' :: prefixlessAddress =>
    let addressBytes := decodeHex prefixlessAddress
    if addressBytes.length ≠ 20 then .error .badAddressLength
    else .ok addressBytes
  | _ => .error .badAddressPrefix

/-- Fixed-width big-endian byte rendering of `v` (the semantics of
`writeUInt16BE` / `writeUInt32BE` / `toArrayLike(Buffer, "be", len)` for
in-range values). -/
def natToBytesBE (len v : Nat) : List Nat :=
  (List.range len).map (fun i => v / 256 ^ (len - 1 - i) % 256)

/-- `serializeTokenId(tokenId)`: rejects negatives and ids at or above
`MAX_NUMBER_OF_TOKENS`, then writes 2 bytes big-endian. -/
def serializeTokenId (tokenId : Int) : Except SerializeError (List Nat) :=
  if tokenId < 0 then .error .negativeTokenId
  else if (MAX_NUMBER_OF_TOKENS : Int) ≤ tokenId then .error .tokenIdTooBig
  else .ok (natToBytesBE 2 tokenId.toNat)

/-- `serializeNonce(nonce)`: rejects negatives, then `writeUInt32BE`
(whose own range check rejects values at or above `2 ^ 32`). -/
def serializeNonce (nonce : Int) : Except SerializeError (List Nat) :=
  if nonce < 0 then .error .negativeNonce
  else if (4294967296 : Int) ≤ nonce then .error .nonceOutOfRange
  else .ok (natToBytesBE 4 nonce.toNat)

/-- `serializeAmountPacked(amount)`. -/
def serializeAmountPacked (amount : Nat) : Except SerializeError (List Nat) :=
  packAmountChecked amount

/-- `serializeAmountFull(amount)`: `toArrayLike(Buffer, "be", 16)`,
which throws when the value needs more than 16 bytes. -/
def serializeAmountFull (amount : Nat) : Except SerializeError (List Nat) :=
  if 2 ^ 128 ≤ amount then .error .amountExceeds16Bytes
  else .ok (natToBytesBE 16 amount)

/-- `serializeFeePacked(fee)`. -/
def serializeFeePacked (fee : Nat) : Except SerializeError (List Nat) :=
  packFeeChecked fee

/-- The `msgBytes` assembled and signed by `Signer.signSyncTransfer`:
tag byte 5, then from-address, to-address, token id, packed amount,
packed fee, nonce.  The external signing primitive applied to these
bytes is out of scope. -/
def transferMsgBytes (fromAddress toAddress : List Char) (tokenId : Int)
    (amount fee : Nat) (nonce : Int) : Except SerializeError (List Nat) := do
  let fromBytes ← serializeAddress fromAddress
  let toBytes ← serializeAddress toAddress
  let token ← serializeTokenId tokenId
  let amountBytes ← serializeAmountPacked amount
  let feeBytes ← serializeFeePacked fee
  let nonceBytes ← serializeNonce nonce
  .ok ([5] ++ fromBytes ++ toBytes ++ token ++ amountBytes ++ feeBytes ++ nonceBytes)

/-- The `msgBytes` assembled and signed by `Signer.signSyncWithdraw`:
tag byte 3, then account address, destination address, token id,
full 16-byte amount, packed fee, nonce. -/
def withdrawMsgBytes (fromAddress ethAddress : List Char) (tokenId : Int)
    (amount fee : Nat) (nonce : Int) : Except SerializeError (List Nat) := do
  let accountBytes ← serializeAddress fromAddress
  let ethAddressBytes ← serializeAddress ethAddress
  let tokenIdBytes ← serializeTokenId tokenId
  let amountBytes ← serializeAmountFull amount
  let feeBytes ← serializeFeePacked fee
  let nonceBytes ← serializeNonce nonce
  .ok ([3] ++ accountBytes ++ ethAddressBytes ++ tokenIdBytes ++ amountBytes ++
    feeBytes ++ nonceBytes)

deriving instance DecidableEq for Except

/-! ## Proof-side helpers: bit-list values -/

/-- Value of a bit list, least-significant bit first. -/
def bitsValLE : List Bool → Nat
  | [] => 0
  | b :: rest => (if b then 1 else 0) + 2 * bitsValLE rest

/-- Value of a bit list, most-significant bit first. -/
def bitsValBE : List Bool → Nat
  | [] => 0
  | b :: rest => (if b then 2 ^ rest.length else 0) + bitsValBE rest

theorem bitsValBE_append_singleton (xs : List Bool) (b : Bool) :
    bitsValBE (xs ++ [b]) = 2 * bitsValBE xs + (if b then 1 else 0) := by
  induction xs with
  | nil => cases b <;> simp [bitsValBE]
  | cons x xs ih =>
    cases x <;> (simp [bitsValBE, ih, List.length_append, pow_succ]; try ring)

theorem bitsValBE_reverse (l : List Bool) : bitsValBE l.reverse = bitsValLE l := by
  induction l with
  | nil => rfl
  | cons b l ih =>
    rw [List.reverse_cons, bitsValBE_append_singleton, ih]
    cases b <;> (simp [bitsValLE]; try ring)

theorem bitsValLE_append (xs ys : List Bool) :
    bitsValLE (xs ++ ys) = bitsValLE xs + 2 ^ xs.length * bitsValLE ys := by
  induction xs with
  | nil => simp [bitsValLE]
  | cons x xs ih =>
    cases x <;> (simp [bitsValLE, ih, pow_succ]; try ring)

theorem natBitsLE_length (n v : Nat) : (natBitsLE n v).length = n := by
  simp [natBitsLE]

theorem natBitsLE_succ (n v : Nat) :
    natBitsLE (n + 1) v = natBitsLE n v ++ [v.testBit n] := by
  simp [natBitsLE, List.range_succ]

theorem bitsValLE_natBitsLE (n v : Nat) :
    bitsValLE (natBitsLE n v) = v % 2 ^ n := by
  induction n with
  | zero => simp [natBitsLE, bitsValLE, Nat.mod_one]
  | succ n ih =>
    rw [natBitsLE_succ, bitsValLE_append, ih, natBitsLE_length]
    have hmul : v % 2 ^ (n + 1) = v % 2 ^ n + 2 ^ n * (v / 2 ^ n % 2) := by
      rw [pow_succ, Nat.mod_mul]
    rcases Nat.mod_two_eq_zero_or_one (v / 2 ^ n) with h | h <;>
      simp [Nat.testBit_to_div_mod, h, hmul, bitsValLE]

theorem bitsLoopAcc_eq (v start len : Nat) :
    bitsLoopAcc v start len = v / 2 ^ start % 2 ^ len := by
  induction len with
  | zero => simp [bitsLoopAcc, Nat.mod_one]
  | succ len ih =>
    rw [bitsLoopAcc, ih]
    have hdiv : v / 2 ^ start / 2 ^ len = v / 2 ^ (start + len) := by
      rw [Nat.div_div_eq_div_mul, pow_add]
    have hmul : v / 2 ^ start % 2 ^ (len + 1)
        = v / 2 ^ start % 2 ^ len + 2 ^ len * (v / 2 ^ (start + len) % 2) := by
      rw [pow_succ, Nat.mod_mul, hdiv]
    rcases Nat.mod_two_eq_zero_or_one (v / 2 ^ (start + len)) with h | h <;>
      simp [Nat.testBit_to_div_mod, h, hmul]

theorem ite_eq_mul_toNat (b : Bool) (x : Nat) :
    (if b then x else 0) = x * b.toNat := by
  cases b <;> simp

theorem bitsValBE_eight (b0 b1 b2 b3 b4 b5 b6 b7 : Bool) (rest : List Bool) :
    bitsValBE (b0 :: b1 :: b2 :: b3 :: b4 :: b5 :: b6 :: b7 :: rest)
      = byteFromBits b0 b1 b2 b3 b4 b5 b6 b7 * 2 ^ rest.length + bitsValBE rest := by
  simp only [bitsValBE, byteFromBits, List.length_cons, ite_eq_mul_toNat]
  ring

theorem beVal_foldl (acc : Nat) (bs : List Nat) :
    List.foldl (fun a b => a * 256 + b) acc bs = acc * 256 ^ bs.length + beVal bs := by
  induction bs generalizing acc with
  | nil => simp [beVal]
  | cons b bs ih =>
    have hb : beVal (b :: bs) = b * 256 ^ bs.length + beVal bs := by
      show List.foldl _ (0 * 256 + b) bs = _
      rw [ih]
      ring_nf
    simp only [List.foldl_cons, List.length_cons]
    rw [ih, hb]
    ring

theorem beVal_cons (b : Nat) (bs : List Nat) :
    beVal (b :: bs) = b * 256 ^ bs.length + beVal bs := by
  show List.foldl _ (0 * 256 + b) bs = _
  rw [beVal_foldl]
  ring_nf

theorem bitsIntoBytesInBEOrder_ok (l : List Bool) (bs : List Nat)
    (h : bitsIntoBytesInBEOrder l = .ok bs) :
    8 * bs.length = l.length ∧ beVal bs = bitsValBE l := by
  induction l using bitsIntoBytesInBEOrder.induct generalizing bs with
  | case1 =>
    simp only [bitsIntoBytesInBEOrder, Except.ok.injEq] at h
    subst h
    simp [beVal, bitsValBE]
  | case2 b0 b1 b2 b3 b4 b5 b6 b7 rest bs' hrec ih =>
    simp only [bitsIntoBytesInBEOrder, hrec, Except.ok.injEq] at h
    subst h
    obtain ⟨h1, h2⟩ := ih bs' hrec
    constructor
    · simp only [List.length_cons]
      omega
    · rw [beVal_cons, bitsValBE_eight, h2]
      have h256 : (256 : Nat) ^ bs'.length = 2 ^ rest.length := by
        calc (256 : Nat) ^ bs'.length = 2 ^ (8 * bs'.length) := by
              rw [show (256 : Nat) = 2 ^ 8 from rfl, ← pow_mul]
          _ = 2 ^ rest.length := by rw [h1]
      rw [h256]
  | case3 b0 b1 b2 b3 b4 b5 b6 b7 rest e hrec ih =>
    simp only [bitsIntoBytesInBEOrder, hrec] at h
    exact Except.noConfusion h
  | case4 t h1 h2 =>
    rcases t with _ | ⟨a1, _ | ⟨a2, _ | ⟨a3, _ | ⟨a4, _ | ⟨a5, _ | ⟨a6, _ | ⟨a7, _ | ⟨a8, t⟩⟩⟩⟩⟩⟩⟩⟩
    · exact absurd rfl h1
    · simp [bitsIntoBytesInBEOrder] at h
    · simp [bitsIntoBytesInBEOrder] at h
    · simp [bitsIntoBytesInBEOrder] at h
    · simp [bitsIntoBytesInBEOrder] at h
    · simp [bitsIntoBytesInBEOrder] at h
    · simp [bitsIntoBytesInBEOrder] at h
    · simp [bitsIntoBytesInBEOrder] at h
    · exact absurd rfl (h2 a1 a2 a3 a4 a5 a6 a7 a8 t)

theorem bitsIntoBytesInBEOrder_error (l : List Bool) (e : SerializeError)
    (h : bitsIntoBytesInBEOrder l = .error e) : e = .wrongNumberOfBits := by
  induction l using bitsIntoBytesInBEOrder.induct with
  | case1 => simp [bitsIntoBytesInBEOrder] at h
  | case2 b0 b1 b2 b3 b4 b5 b6 b7 rest bs' hrec ih =>
    simp only [bitsIntoBytesInBEOrder, hrec] at h
    exact Except.noConfusion h
  | case3 b0 b1 b2 b3 b4 b5 b6 b7 rest e2 hrec ih =>
    simp only [bitsIntoBytesInBEOrder, hrec, Except.error.injEq] at h
    subst h
    exact ih hrec
  | case4 t h1 h2 =>
    rcases t with _ | ⟨a1, _ | ⟨a2, _ | ⟨a3, _ | ⟨a4, _ | ⟨a5, _ | ⟨a6, _ | ⟨a7, _ | ⟨a8, t⟩⟩⟩⟩⟩⟩⟩⟩
    · exact absurd rfl h1
    · simp only [bitsIntoBytesInBEOrder, Except.error.injEq] at h; exact h.symm
    · simp only [bitsIntoBytesInBEOrder, Except.error.injEq] at h; exact h.symm
    · simp only [bitsIntoBytesInBEOrder, Except.error.injEq] at h; exact h.symm
    · simp only [bitsIntoBytesInBEOrder, Except.error.injEq] at h; exact h.symm
    · simp only [bitsIntoBytesInBEOrder, Except.error.injEq] at h; exact h.symm
    · simp only [bitsIntoBytesInBEOrder, Except.error.injEq] at h; exact h.symm
    · simp only [bitsIntoBytesInBEOrder, Except.error.injEq] at h; exact h.symm
    · exact absurd rfl (h2 a1 a2 a3 a4 a5 a6 a7 a8 t)

theorem bitsIntoBytesInBEOrder_total (n : Nat) :
    ∀ l : List Bool, l.length = 8 * n → ∃ bs, bitsIntoBytesInBEOrder l = .ok bs := by
  induction n with
  | zero =>
    intro l hl
    rw [Nat.mul_zero, List.length_eq_zero] at hl
    subst hl
    exact ⟨[], rfl⟩
  | succ n ih =>
    intro l hl
    rcases l with _ | ⟨a1, _ | ⟨a2, _ | ⟨a3, _ | ⟨a4, _ | ⟨a5, _ | ⟨a6, _ | ⟨a7, _ | ⟨a8, t⟩⟩⟩⟩⟩⟩⟩⟩ <;>
      simp only [List.length_cons, List.length_nil] at hl
    all_goals try omega
    have ht : t.length = 8 * n := by omega
    obtain ⟨bs, hbs⟩ := ih t ht
    refine ⟨byteFromBits a1 a2 a3 a4 a5 a6 a7 a8 :: bs, ?_⟩
    rw [bitsIntoBytesInBEOrder, hbs]

theorem divideUntilFits_spec (base maxM : Nat) :
    ∀ (fuel m e : Nat), (∃ j ≤ fuel, m / base ^ j ≤ maxM) →
      ∃ k, divideUntilFits base maxM fuel m e = (m / base ^ k, e + k) ∧
        m / base ^ k ≤ maxM ∧ ∀ j < k, maxM < m / base ^ j := by
  intro fuel
  induction fuel with
  | zero =>
    intro m e hterm
    obtain ⟨j, hj, hfit⟩ := hterm
    interval_cases j
    refine ⟨0, ?_, ?_, ?_⟩
    · simp [divideUntilFits]
    · simpa using hfit
    · intro j hj
      omega
  | succ fuel ih =>
    intro m e hterm
    by_cases hgt : maxM < m
    · obtain ⟨j, hj, hfit⟩ := hterm
      have hj0 : j ≠ 0 := by
        rintro rfl
        simp at hfit
        omega
      obtain ⟨j', rfl⟩ := Nat.exists_eq_succ_of_ne_zero hj0
      have hstep : ∀ i : Nat, m / base / base ^ i = m / base ^ (i + 1) := by
        intro i
        rw [Nat.div_div_eq_div_mul, ← pow_succ']
      have hterm' : ∃ i ≤ fuel, (m / base) / base ^ i ≤ maxM := by
        refine ⟨j', by omega, ?_⟩
        rw [hstep]
        exact hfit
      obtain ⟨k', hres, hfit', hmin'⟩ := ih (m / base) (e + 1) hterm'
      refine ⟨k' + 1, ?_, ?_, ?_⟩
      · rw [divideUntilFits, if_pos hgt, hres, hstep]
        simp only [Prod.mk.injEq, true_and]
        omega
      · rw [← hstep]
        exact hfit'
      · intro j hjk
        cases j with
        | zero => simpa using hgt
        | succ i =>
          rw [← hstep]
          exact hmin' i (by omega)
    · refine ⟨0, ?_, by simpa using hgt, ?_⟩
      · rw [divideUntilFits, if_neg hgt]
        simp
      · intro j hj
        omega

theorem integerToFloat_spec (E M v : Nat) (hdiv : (E + M) % 8 = 0)
    (hv : v ≤ (2 ^ M - 1) * 10 ^ (2 ^ E - 1)) :
    ∃ buf e, integerToFloat v E M 10 = .ok buf ∧
      buf.length = (E + M) / 8 ∧
      v / 10 ^ e ≤ 2 ^ M - 1 ∧ (∀ j < e, 2 ^ M - 1 < v / 10 ^ j) ∧ e < 2 ^ E ∧
      floatToInteger (reverseBits buf) E M 10 = .ok (10 ^ e * (v / 10 ^ e)) := by
  have hEpos : 0 < 2 ^ E := pow_pos (by norm_num) E
  have hMpos : 0 < 2 ^ M := pow_pos (by norm_num) M
  have hnof : ¬ (2 ^ M - 1) * 10 ^ (2 ^ E - 1) < v := not_lt.mpr hv
  have hfitE : v / 10 ^ (2 ^ E - 1) ≤ 2 ^ M - 1 := by
    calc v / 10 ^ (2 ^ E - 1)
        ≤ (2 ^ M - 1) * 10 ^ (2 ^ E - 1) / 10 ^ (2 ^ E - 1) :=
          Nat.div_le_div_right hv
      _ = 2 ^ M - 1 := Nat.mul_div_cancel _ (pow_pos (by norm_num) _)
  have hterm : ∃ j ≤ 2 ^ E, v / 10 ^ j ≤ 2 ^ M - 1 := ⟨2 ^ E - 1, by omega, hfitE⟩
  obtain ⟨k, hres, hfit, hmin⟩ :=
    divideUntilFits_spec 10 (2 ^ M - 1) (2 ^ E) v 0 hterm
  have hkle : k ≤ 2 ^ E - 1 := by
    by_contra hk
    push_neg at hk
    have hcontra := hmin (2 ^ E - 1) (by omega)
    omega
  have hklt : k < 2 ^ E := by omega
  have hmlt : v / 10 ^ k < 2 ^ M := by omega
  have hlen : (natBitsLE E k ++ natBitsLE M (v / 10 ^ k)).length = E + M := by
    simp [natBitsLE_length]
  have hlenrev : (natBitsLE E k ++ natBitsLE M (v / 10 ^ k)).reverse.length
      = 8 * ((E + M) / 8) := by
    rw [List.length_reverse, hlen]
    omega
  obtain ⟨bs, hbs⟩ := bitsIntoBytesInBEOrder_total ((E + M) / 8) _ hlenrev
  obtain ⟨hbs_len, hbs_val⟩ := bitsIntoBytesInBEOrder_ok _ _ hbs
  have hbslen : bs.length = (E + M) / 8 := by
    rw [List.length_reverse, hlen] at hbs_len
    omega
  have hitf : integerToFloat v E M 10 = .ok bs.reverse := by
    simp only [integerToFloat, if_neg hnof, hres, Nat.zero_add, hbs]
  have hval : beVal bs = k + 2 ^ E * (v / 10 ^ k) := by
    rw [hbs_val, bitsValBE_reverse, bitsValLE_append,
      bitsValLE_natBitsLE, bitsValLE_natBitsLE, natBitsLE_length,
      Nat.mod_eq_of_lt hklt, Nat.mod_eq_of_lt hmlt]
  have hrev : reverseBits bs.reverse = bs := by
    simp [reverseBits, reverseBitsTracked]
  have hfti : floatToInteger bs E M 10 = .ok (10 ^ k * (v / 10 ^ k)) := by
    have hl : ¬ bs.length * 8 ≠ M + E := by omega
    simp only [floatToInteger, if_neg hl, bitsLoopAcc_eq, hval]
    have he : (k + 2 ^ E * (v / 10 ^ k)) / 2 ^ 0 % 2 ^ E = k := by
      rw [pow_zero, Nat.div_one, Nat.add_mul_mod_self_left, Nat.mod_eq_of_lt hklt]
    have hm : (k + 2 ^ E * (v / 10 ^ k)) / 2 ^ E % 2 ^ M = v / 10 ^ k := by
      rw [Nat.add_mul_div_left _ _ hEpos, Nat.div_eq_of_lt hklt, Nat.zero_add,
        Nat.mod_eq_of_lt hmlt]
    rw [he, hm]
  refine ⟨bs.reverse, k, hitf, by rw [List.length_reverse]; exact hbslen,
    hfit, hmin, hklt, ?_⟩
  rw [hrev, hfti]

theorem reverseBits_eq (buffer : List Nat) : reverseBits buffer = buffer.reverse := rfl

theorem natToBytesBE_length (len v : Nat) : (natToBytesBE len v).length = len := by
  simp [natToBytesBE]

theorem integerToFloat_ok_length (v E M b : Nat) (buf : List Nat)
    (h : integerToFloat v E M b = .ok buf) : buf.length * 8 = E + M := by
  simp only [integerToFloat] at h
  split at h
  · exact Except.noConfusion h
  · split at h
    · rename_i bytes hbytes
      obtain ⟨hlen, _⟩ := bitsIntoBytesInBEOrder_ok _ _ hbytes
      rw [List.length_reverse, List.length_append, natBitsLE_length, natBitsLE_length] at hlen
      cases h
      rw [List.length_reverse]
      omega
    · exact Except.noConfusion h

theorem packAmount_ok_length (v : Nat) (bs : List Nat)
    (h : packAmount v = .ok bs) : bs.length = 5 := by
  unfold packAmount at h
  cases hbuf : integerToFloat v AMOUNT_EXPONENT_BIT_WIDTH AMOUNT_MANTISSA_BIT_WIDTH 10 with
  | error e => rw [hbuf] at h; exact Except.noConfusion h
  | ok buf =>
    rw [hbuf] at h
    simp only [Except.map] at h
    cases h
    have hl := integerToFloat_ok_length _ _ _ _ _ hbuf
    rw [reverseBits_eq, List.length_reverse]
    simp only [AMOUNT_EXPONENT_BIT_WIDTH, AMOUNT_MANTISSA_BIT_WIDTH] at hl
    omega

theorem packFee_ok_length (v : Nat) (bs : List Nat)
    (h : packFee v = .ok bs) : bs.length = 2 := by
  unfold packFee at h
  cases hbuf : integerToFloat v FEE_EXPONENT_BIT_WIDTH FEE_MANTISSA_BIT_WIDTH 10 with
  | error e => rw [hbuf] at h; exact Except.noConfusion h
  | ok buf =>
    rw [hbuf] at h
    simp only [Except.map] at h
    cases h
    have hl := integerToFloat_ok_length _ _ _ _ _ hbuf
    rw [reverseBits_eq, List.length_reverse]
    simp only [FEE_EXPONENT_BIT_WIDTH, FEE_MANTISSA_BIT_WIDTH] at hl
    omega

theorem packAmountChecked_ok (a : Nat) (bs : List Nat)
    (h : packAmountChecked a = .ok bs) :
    packAmount a = .ok bs ∧ closestPackableTransactionAmount a = .ok a := by
  simp only [packAmountChecked] at h
  cases hc : closestPackableTransactionAmount a with
  | error e => rw [hc] at h; exact Except.noConfusion h
  | ok c =>
    rw [hc] at h
    simp only [bind, Except.bind] at h
    by_cases hca : c = a
    · subst hca
      simp at h
      exact ⟨h, rfl⟩
    · rw [if_pos (by simpa using hca)] at h
      exact Except.noConfusion h

theorem packFeeChecked_ok (a : Nat) (bs : List Nat)
    (h : packFeeChecked a = .ok bs) :
    packFee a = .ok bs ∧ closestPackableTransactionFee a = .ok a := by
  simp only [packFeeChecked] at h
  cases hc : closestPackableTransactionFee a with
  | error e => rw [hc] at h; exact Except.noConfusion h
  | ok c =>
    rw [hc] at h
    simp only [bind, Except.bind] at h
    by_cases hca : c = a
    · subst hca
      simp at h
      exact ⟨h, rfl⟩
    · rw [if_pos (by simpa using hca)] at h
      exact Except.noConfusion h

theorem serializeAddress_ok_length (a : List Char) (bs : List Nat)
    (h : serializeAddress a = .ok bs) : bs.length = 20 := by
  simp only [serializeAddress] at h
  split at h
  · split at h
    · exact Except.noConfusion h
    · cases h
      omega
  · split at h
    · exact Except.noConfusion h
    · cases h
      omega
  · exact Except.noConfusion h

theorem serializeTokenId_ok_length (t : Int) (bs : List Nat)
    (h : serializeTokenId t = .ok bs) : bs.length = 2 := by
  simp only [serializeTokenId] at h
  split at h
  · exact Except.noConfusion h
  · split at h
    · exact Except.noConfusion h
    · cases h
      exact natToBytesBE_length _ _

theorem serializeNonce_ok_length (n : Int) (bs : List Nat)
    (h : serializeNonce n = .ok bs) : bs.length = 4 := by
  simp only [serializeNonce] at h
  split at h
  · exact Except.noConfusion h
  · split at h
    · exact Except.noConfusion h
    · cases h
      exact natToBytesBE_length _ _

theorem serializeAmountFull_ok_length (a : Nat) (bs : List Nat)
    (h : serializeAmountFull a = .ok bs) : bs.length = 16 := by
  simp only [serializeAmountFull] at h
  split at h
  · exact Except.noConfusion h
  · cases h
    exact natToBytesBE_length _ _

theorem closestAmount_spec (v : Nat) (hv : v ≤ (2 ^ 35 - 1) * 10 ^ 31) :
    ∃ e, v / 10 ^ e ≤ 2 ^ 35 - 1 ∧ (∀ j < e, 2 ^ 35 - 1 < v / 10 ^ j) ∧ e ≤ 31 ∧
      closestPackableTransactionAmount v = .ok (10 ^ e * (v / 10 ^ e)) := by
  obtain ⟨buf, e, hok, hlen, hfit, hmin, hlt, hfti⟩ :=
    integerToFloat_spec 5 35 v (by norm_num) hv
  refine ⟨e, hfit, hmin, by omega, ?_⟩
  simp only [closestPackableTransactionAmount, packAmount,
    AMOUNT_EXPONENT_BIT_WIDTH, AMOUNT_MANTISSA_BIT_WIDTH, hok, Except.map,
    bind, Except.bind]
  exact hfti

theorem closestFee_spec (v : Nat) (hv : v ≤ (2 ^ 11 - 1) * 10 ^ 31) :
    ∃ e, v / 10 ^ e ≤ 2 ^ 11 - 1 ∧ (∀ j < e, 2 ^ 11 - 1 < v / 10 ^ j) ∧ e ≤ 31 ∧
      closestPackableTransactionFee v = .ok (10 ^ e * (v / 10 ^ e)) := by
  obtain ⟨buf, e, hok, hlen, hfit, hmin, hlt, hfti⟩ :=
    integerToFloat_spec 5 11 v (by norm_num) hv
  refine ⟨e, hfit, hmin, by omega, ?_⟩
  simp only [closestPackableTransactionFee, packFee,
    FEE_EXPONENT_BIT_WIDTH, FEE_MANTISSA_BIT_WIDTH, hok, Except.map,
    bind, Except.bind]
  exact hfti

theorem pow_mul_div_cancel_le (m e e' : Nat) (he' : e' ≤ e) :
    (10 ^ e * m) / 10 ^ e' = 10 ^ (e - e') * m := by
  have hsplit : (10 : Nat) ^ e = 10 ^ e' * 10 ^ (e - e') := by
    rw [← pow_add]
    congr 1
    omega
  rw [hsplit, mul_assoc, Nat.mul_div_cancel_left _ (pow_pos (by norm_num) e')]

/-- Claim C2 (confirmed): for every non-negative `v` within the encoding
bound, `closestPackableTransactionAmount v` equals `(v / 10 ^ e) * 10 ^ e`
where `e` is the smallest non-negative integer with
`v / 10 ^ e ≤ 2 ^ 35 - 1` (the two conjuncts on `e` pin down exactly that
smallest `e`); likewise `closestPackableTransactionFee` with mantissa
bound `2 ^ 11 - 1`.  This is proved by showing `floatToInteger` exactly
inverts the bit/byte layout produced by `integerToFloat` followed by
`reverseBits` (see `integerToFloat_spec`). -/
theorem claim_C2_closest_characterization :
    (∀ v : Nat, v ≤ (2 ^ 35 - 1) * 10 ^ 31 →
      ∃ e, (∀ j < e, 2 ^ 35 - 1 < v / 10 ^ j) ∧ v / 10 ^ e ≤ 2 ^ 35 - 1 ∧
        closestPackableTransactionAmount v = .ok ((v / 10 ^ e) * 10 ^ e))
    ∧ (∀ v : Nat, v ≤ (2 ^ 11 - 1) * 10 ^ 31 →
      ∃ e, (∀ j < e, 2 ^ 11 - 1 < v / 10 ^ j) ∧ v / 10 ^ e ≤ 2 ^ 11 - 1 ∧
        closestPackableTransactionFee v = .ok ((v / 10 ^ e) * 10 ^ e)) := by
  constructor
  · intro v hv
    obtain ⟨e, hfit, hmin, hle, heq⟩ := closestAmount_spec v hv
    exact ⟨e, hmin, hfit, by rw [heq, Nat.mul_comm]⟩
  · intro v hv
    obtain ⟨e, hfit, hmin, hle, heq⟩ := closestFee_spec v hv
    exact ⟨e, hmin, hfit, by rw [heq, Nat.mul_comm]⟩

/-- Claim C1 (confirmed): round-trip at both widths.  For every
non-negative `v` within the bound, if the packed encoding of `v` decodes
back to `v` (`closestPackableTransactionAmount v = v`, resp. the fee
variant), then `packAmountChecked v` (resp. `packFeeChecked v`) succeeds
and `floatToInteger` at `expBits = 5` and the matching mantissa width
applied to the returned buffer yields `v`. -/
theorem claim_C1_packChecked_roundTrip :
    (∀ v : Nat, v ≤ (2 ^ 35 - 1) * 10 ^ 31 →
      closestPackableTransactionAmount v = .ok v →
      ∃ buf, packAmountChecked v = .ok buf ∧ floatToInteger buf 5 35 10 = .ok v)
    ∧ (∀ v : Nat, v ≤ (2 ^ 11 - 1) * 10 ^ 31 →
      closestPackableTransactionFee v = .ok v →
      ∃ buf, packFeeChecked v = .ok buf ∧ floatToInteger buf 5 11 10 = .ok v) := by
  constructor
  · intro v hv hc
    cases hp : packAmount v with
    | error e =>
      rw [closestPackableTransactionAmount, hp] at hc
      simp only [bind, Except.bind] at hc
      exact Except.noConfusion hc
    | ok pbuf =>
      have hfti : floatToInteger pbuf 5 35 10 = .ok v := by
        rw [closestPackableTransactionAmount, hp] at hc
        simp only [bind, Except.bind] at hc
        simpa [AMOUNT_EXPONENT_BIT_WIDTH, AMOUNT_MANTISSA_BIT_WIDTH] using hc
      refine ⟨pbuf, ?_, hfti⟩
      rw [packAmountChecked, hc]
      simp only [bind, Except.bind, ne_eq, not_true_eq_false, if_false, ite_false]
      simpa using hp
  · intro v hv hc
    cases hp : packFee v with
    | error e =>
      rw [closestPackableTransactionFee, hp] at hc
      simp only [bind, Except.bind] at hc
      exact Except.noConfusion hc
    | ok pbuf =>
      have hfti : floatToInteger pbuf 5 11 10 = .ok v := by
        rw [closestPackableTransactionFee, hp] at hc
        simp only [bind, Except.bind] at hc
        simpa [FEE_EXPONENT_BIT_WIDTH, FEE_MANTISSA_BIT_WIDTH] using hc
      refine ⟨pbuf, ?_, hfti⟩
      rw [packFeeChecked, hc]
      simp only [bind, Except.bind, ne_eq, not_true_eq_false, if_false, ite_false]
      simpa using hp

/-- Claim C6 (confirmed): idempotence.  For every `x` within the encoding
bound, `closestPackableTransactionAmount x` succeeds with a value `y`
that is a fixed point of `closestPackableTransactionAmount`; likewise
for `closestPackableTransactionFee` at the fee width. -/
theorem claim_C6_closest_idempotent :
    (∀ x : Nat, x ≤ (2 ^ 35 - 1) * 10 ^ 31 →
      ∃ y, closestPackableTransactionAmount x = .ok y ∧
        closestPackableTransactionAmount y = .ok y)
    ∧ (∀ x : Nat, x ≤ (2 ^ 11 - 1) * 10 ^ 31 →
      ∃ y, closestPackableTransactionFee x = .ok y ∧
        closestPackableTransactionFee y = .ok y) := by
  constructor
  · intro x hx
    obtain ⟨e, hfit, hmin, hle, heq⟩ := closestAmount_spec x hx
    refine ⟨10 ^ e * (x / 10 ^ e), heq, ?_⟩
    have hy : 10 ^ e * (x / 10 ^ e) ≤ (2 ^ 35 - 1) * 10 ^ 31 := by
      calc 10 ^ e * (x / 10 ^ e) ≤ 10 ^ 31 * (2 ^ 35 - 1) :=
            Nat.mul_le_mul (Nat.pow_le_pow_right (by norm_num) hle) hfit
        _ = (2 ^ 35 - 1) * 10 ^ 31 := Nat.mul_comm _ _
    obtain ⟨e', hfit', hmin', hle', heq'⟩ :=
      closestAmount_spec (10 ^ e * (x / 10 ^ e)) hy
    have hdivE : 10 ^ e * (x / 10 ^ e) / 10 ^ e = x / 10 ^ e :=
      Nat.mul_div_cancel_left _ (pow_pos (by norm_num) e)
    have he'le : e' ≤ e := by
      by_contra hgt
      push_neg at hgt
      have := hmin' e hgt
      rw [hdivE] at this
      omega
    have hdiv : 10 ^ e * (x / 10 ^ e) / 10 ^ e' = 10 ^ (e - e') * (x / 10 ^ e) :=
      pow_mul_div_cancel_le _ _ _ he'le
    rw [heq', hdiv, ← mul_assoc, ← pow_add, Nat.add_sub_cancel' he'le]
  · intro x hx
    obtain ⟨e, hfit, hmin, hle, heq⟩ := closestFee_spec x hx
    refine ⟨10 ^ e * (x / 10 ^ e), heq, ?_⟩
    have hy : 10 ^ e * (x / 10 ^ e) ≤ (2 ^ 11 - 1) * 10 ^ 31 := by
      calc 10 ^ e * (x / 10 ^ e) ≤ 10 ^ 31 * (2 ^ 11 - 1) :=
            Nat.mul_le_mul (Nat.pow_le_pow_right (by norm_num) hle) hfit
        _ = (2 ^ 11 - 1) * 10 ^ 31 := Nat.mul_comm _ _
    obtain ⟨e', hfit', hmin', hle', heq'⟩ :=
      closestFee_spec (10 ^ e * (x / 10 ^ e)) hy
    have hdivE : 10 ^ e * (x / 10 ^ e) / 10 ^ e = x / 10 ^ e :=
      Nat.mul_div_cancel_left _ (pow_pos (by norm_num) e)
    have he'le : e' ≤ e := by
      by_contra hgt
      push_neg at hgt
      have := hmin' e hgt
      rw [hdivE] at this
      omega
    have hdiv : 10 ^ e * (x / 10 ^ e) / 10 ^ e' = 10 ^ (e - e') * (x / 10 ^ e) :=
      pow_mul_div_cancel_le _ _ _ he'le
    rw [heq', hdiv, ← mul_assoc, ← pow_add, Nat.add_sub_cancel' he'le]

/-- Claim C7 (confirmed): encoding overflow.  `integerToFloat v E M 10`
fails with the overflow error exactly when
`v > (2 ^ M - 1) * 10 ^ (2 ^ E - 1)`; and (for byte-aligned widths,
which the claimed byte count `(E + M) / 8` presupposes) every `v` at or
below the bound yields a buffer of exactly `(E + M) / 8` bytes. -/
theorem claim_C7_encoding_overflow (E M v : Nat) :
    (integerToFloat v E M 10 = .error .integerTooBig ↔
      (2 ^ M - 1) * 10 ^ (2 ^ E - 1) < v)
    ∧ ((E + M) % 8 = 0 → v ≤ (2 ^ M - 1) * 10 ^ (2 ^ E - 1) →
      ∃ buf, integerToFloat v E M 10 = .ok buf ∧ buf.length = (E + M) / 8) := by
  constructor
  · constructor
    · intro herr
      by_contra hgt
      push_neg at hgt
      simp only [integerToFloat, if_neg (not_lt.mpr hgt)] at herr
      revert herr
      split
      · intro herr
        exact Except.noConfusion herr
      · rename_i e he
        intro herr
        have hw := bitsIntoBytesInBEOrder_error _ _ he
        subst hw
        simp at herr
    · intro hlt
      rw [integerToFloat, if_pos hlt]
  · intro hdiv hle
    obtain ⟨buf, e, hok, hlen, _, _, _, _⟩ := integerToFloat_spec E M v hdiv hle
    exact ⟨buf, hok, hlen⟩

/-- Claim C4 (confirmed): canonical message layout.  Whenever all field
serializations succeed, the message assembled by `signSyncTransfer` is
exactly tag byte `5` followed by from-address (20), to-address (20),
tokenId (2), packed amount (5), packed fee (2) and nonce (4) — 54 bytes;
and the message assembled by `signSyncWithdraw` is exactly tag byte `3`
followed by account address (20), destination address (20), tokenId (2),
full big-endian amount (16), packed fee (2) and nonce (4) — 65 bytes. -/
theorem claim_C4_message_layout :
    (∀ (fromA toA : List Char) (tok : Int) (amt fee : Nat) (nonce : Int)
        (fb tb kb ab feb nb : List Nat),
      serializeAddress fromA = .ok fb → serializeAddress toA = .ok tb →
      serializeTokenId tok = .ok kb → serializeAmountPacked amt = .ok ab →
      serializeFeePacked fee = .ok feb → serializeNonce nonce = .ok nb →
      transferMsgBytes fromA toA tok amt fee nonce
          = .ok ([5] ++ fb ++ tb ++ kb ++ ab ++ feb ++ nb) ∧
        fb.length = 20 ∧ tb.length = 20 ∧ kb.length = 2 ∧ ab.length = 5 ∧
        feb.length = 2 ∧ nb.length = 4 ∧
        ([5] ++ fb ++ tb ++ kb ++ ab ++ feb ++ nb).length = 54)
    ∧ (∀ (fromA ethA : List Char) (tok : Int) (amt fee : Nat) (nonce : Int)
        (fb eb kb ab feb nb : List Nat),
      serializeAddress fromA = .ok fb → serializeAddress ethA = .ok eb →
      serializeTokenId tok = .ok kb → serializeAmountFull amt = .ok ab →
      serializeFeePacked fee = .ok feb → serializeNonce nonce = .ok nb →
      withdrawMsgBytes fromA ethA tok amt fee nonce
          = .ok ([3] ++ fb ++ eb ++ kb ++ ab ++ feb ++ nb) ∧
        fb.length = 20 ∧ eb.length = 20 ∧ kb.length = 2 ∧ ab.length = 16 ∧
        feb.length = 2 ∧ nb.length = 4 ∧
        ([3] ++ fb ++ eb ++ kb ++ ab ++ feb ++ nb).length = 65) := by
  constructor
  · intro fromA toA tok amt fee nonce fb tb kb ab feb nb h1 h2 h3 h4 h5 h6
    have hab : ab.length = 5 := by
      obtain ⟨hp, _⟩ := packAmountChecked_ok amt ab h4
      exact packAmount_ok_length _ _ hp
    have hfeb : feb.length = 2 := by
      obtain ⟨hp, _⟩ := packFeeChecked_ok fee feb h5
      exact packFee_ok_length _ _ hp
    have hfb := serializeAddress_ok_length _ _ h1
    have htb := serializeAddress_ok_length _ _ h2
    have hkb := serializeTokenId_ok_length _ _ h3
    have hnb := serializeNonce_ok_length _ _ h6
    refine ⟨?_, hfb, htb, hkb, hab, hfeb, hnb, ?_⟩
    · rw [transferMsgBytes, h1, h2, h3, h4, h5, h6]
      simp [bind, Except.bind]
    · simp [List.length_append, hfb, htb, hkb, hab, hfeb, hnb]
  · intro fromA ethA tok amt fee nonce fb eb kb ab feb nb h1 h2 h3 h4 h5 h6
    have hfeb : feb.length = 2 := by
      obtain ⟨hp, _⟩ := packFeeChecked_ok fee feb h5
      exact packFee_ok_length _ _ hp
    have hfb := serializeAddress_ok_length _ _ h1
    have heb := serializeAddress_ok_length _ _ h2
    have hkb := serializeTokenId_ok_length _ _ h3
    have hab := serializeAmountFull_ok_length _ _ h4
    have hnb := serializeNonce_ok_length _ _ h6
    refine ⟨?_, hfb, heb, hkb, hab, hfeb, hnb, ?_⟩
    · rw [withdrawMsgBytes, h1, h2, h3, h4, h5, h6]
      simp [bind, Except.bind]
    · simp [List.length_append, hfb, heb, hkb, hab, hfeb, hnb]

/-- Claim C3 (confirmed): `reverseBits` performs only a byte-order
reversal: `reverseBits buffer` is `buffer.reverse`, so the byte at index
`i` of the result is the byte at index `length - 1 - i` of the input,
and the within-byte bit-reversal transform (`bitReverseByte`, applied
through a `Buffer.map` whose result is discarded) has no effect on the
returned buffer. -/
theorem claim_C3_reverseBits_byte_reversal : ∀ buffer : List Nat,
    reverseBits buffer = buffer.reverse ∧
    ∀ i, i < buffer.length →
      (reverseBits buffer).getD i 0 = buffer.getD (buffer.length - 1 - i) 0 := by
  intro buffer
  refine ⟨rfl, ?_⟩
  intro i hi
  rw [reverseBits_eq, List.getD_eq_getElem?_getD, List.getD_eq_getElem?_getD,
    List.getElem?_reverse hi]

/-- Claim C5 counterexample: at the amount width (expBits 5,
mantissaBits 35) the value 1000000003 is below the mantissa bound
`2 ^ 35 - 1`, so `closestPackableTransactionAmount 1000000003` returns
1000000003 — not 1000000000 as claimed — and
`packAmountChecked 1000000003` succeeds instead of failing. -/
theorem claim_C5_counterexample :
    closestPackableTransactionAmount 1000000003 ≠ .ok 1000000000 ∧
    closestPackableTransactionAmount 1000000003 = .ok 1000000003 ∧
    (packAmountChecked 1000000003).isOk = true := by
  refine ⟨by decide, rfl, rfl⟩

/-- Claim C5 amended (corrected): at the amount width 1000000003 is
exactly packable (`closestPackableTransactionAmount 1000000003 =
1000000003` and `packAmountChecked` succeeds on both 1000000003 and
1000000000); the example as stated holds at the fee width instead
(mantissaBits 11): `closestPackableTransactionFee 1000000003 =
1000000000`, `packFeeChecked 1000000000` succeeds, and
`packFeeChecked 1000000003` fails with the not-packable error. -/
theorem claim_C5_amended :
    closestPackableTransactionAmount 1000000003 = .ok 1000000003 ∧
    (packAmountChecked 1000000003).isOk = true ∧
    (packAmountChecked 1000000000).isOk = true ∧
    closestPackableTransactionFee 1000000003 = .ok 1000000000 ∧
    (packFeeChecked 1000000000).isOk = true ∧
    packFeeChecked 1000000003 = .error .feeNotPackable := by
  exact ⟨rfl, rfl, rfl, rfl, rfl, rfl⟩

/-- Claim C8 counterexample: `reverseBits` mutates its argument.
`buffer.reverse()` reverses the argument in place before `Buffer.from`
copies it, so after `reverseBits([0, 1])` the argument holds `[1, 0]`,
not its original contents. -/
theorem claim_C8_counterexample : (reverseBitsTracked [0, 1]).2 ≠ [0, 1] := by decide

/-- Claim C8 amended (corrected): `reverseBits` is the one serialization
operation that mutates an argument: the call leaves its argument exactly
byte-reversed (`Buffer.prototype.reverse` is in place), and its returned
buffer equals that same byte reversal.  `packAmount`/`packFee` apply it
only to the freshly allocated buffer returned by `integerToFloat`, so no
caller-supplied argument of the packing entry points is mutated. -/
theorem claim_C8_amended : ∀ buffer : List Nat,
    (reverseBitsTracked buffer).1 = buffer.reverse ∧
    (reverseBitsTracked buffer).2 = buffer.reverse := by
  intro buffer
  exact ⟨rfl, rfl⟩

theorem toNat_ofNat_of_valid {n : Nat} (h : n < 55296) : (Char.ofNat n).toNat = n := by
  rw [Char.ofNat, dif_pos (Or.inl h)]
  rfl

theorem hexDigitVal_toLower (c : Char) (v : Nat) (h : hexDigitVal? c = some v) :
    hexDigitVal? c.toLower = some v := by
  simp only [hexDigitVal?] at h
  by_cases h1 : 48 ≤ c.toNat ∧ c.toNat ≤ 57
  · rw [if_pos h1] at h
    have hlow : c.toLower = c := by
      simp only [Char.toLower]
      rw [if_neg (by omega)]
    rw [hlow]
    simp only [hexDigitVal?]
    rw [if_pos h1]
    exact h
  · rw [if_neg h1] at h
    by_cases h2 : 97 ≤ c.toNat ∧ c.toNat ≤ 102
    · rw [if_pos h2] at h
      have hlow : c.toLower = c := by
        simp only [Char.toLower]
        rw [if_neg (by omega)]
      rw [hlow]
      simp only [hexDigitVal?]
      rw [if_neg h1, if_pos h2]
      exact h
    · rw [if_neg h2] at h
      by_cases h3 : 65 ≤ c.toNat ∧ c.toNat ≤ 70
      · rw [if_pos h3] at h
        have hlow : c.toLower = Char.ofNat (c.toNat + 32) := by
          simp only [Char.toLower]
          rw [if_pos (by omega)]
        have hval : (Char.ofNat (c.toNat + 32)).toNat = c.toNat + 32 :=
          toNat_ofNat_of_valid (by omega)
        rw [hlow]
        simp only [hexDigitVal?, hval]
        rw [if_neg (by omega), if_pos (by omega)]
        have harith : c.toNat + 32 - 87 = c.toNat - 55 := by omega
        rw [harith]
        exact h
      · rw [if_neg h3] at h
        exact Option.noConfusion h

theorem decodeHex_length (n : Nat) : ∀ cs : List Char,
    (∀ c ∈ cs, (hexDigitVal? c).isSome = true) → cs.length = 2 * n →
    (decodeHex cs).length = n := by
  induction n with
  | zero =>
    intro cs hhex hlen
    rw [Nat.mul_zero, List.length_eq_zero] at hlen
    subst hlen
    rfl
  | succ n ih =>
    intro cs hhex hlen
    rcases cs with _ | ⟨c1, _ | ⟨c2, rest⟩⟩
    · simp at hlen
    · simp at hlen
      omega
    · obtain ⟨v1, hv1⟩ := Option.isSome_iff_exists.mp (hhex c1 (by simp))
      obtain ⟨v2, hv2⟩ := Option.isSome_iff_exists.mp (hhex c2 (by simp))
      simp only [decodeHex, hv1, hv2, List.length_cons]
      rw [ih rest (fun c hc => hhex c (by simp [hc])) (by simp at hlen; omega)]

theorem decodeHex_map_toLower (cs : List Char)
    (hhex : ∀ c ∈ cs, (hexDigitVal? c).isSome = true) :
    decodeHex (cs.map Char.toLower) = decodeHex cs := by
  induction cs using decodeHex.induct with
  | case1 c1 c2 rest hi lo hv1 hv2 ih =>
    simp only [List.map_cons, decodeHex, hv1, hv2,
      hexDigitVal_toLower c1 hi hv2, hexDigitVal_toLower c2 lo hv1]
    rw [ih (fun c hc => hhex c (by simp [hc]))]
  | case2 c1 c2 rest hnone =>
    obtain ⟨v1, hv1⟩ := Option.isSome_iff_exists.mp (hhex c1 (by simp))
    obtain ⟨v2, hv2⟩ := Option.isSome_iff_exists.mp (hhex c2 (by simp))
    exact absurd hv2
      ((by simpa using hnone :
        ∀ hi lo : Nat, hexDigitVal? c1 = some hi → ¬hexDigitVal? c2 = some lo)
        v1 v2 hv1)
  | case3 t h =>
    rcases t with _ | ⟨c, _ | ⟨c2, rest⟩⟩
    · rfl
    · rfl
    · exact absurd rfl (h c c2 rest)

theorem serializeAddress_hex_ok (cs : List Char) (h20 : (decodeHex cs).length = 20) :
    serializeAddress ('0' :: 'x' :: cs) = .ok (decodeHex cs) ∧
    serializeAddress ('s' :: 'y' :: 'n' :: 'c' :: ':' :: cs) = .ok (decodeHex cs) := by
  constructor
  · simp only [serializeAddress]
    rw [if_neg (by omega)]
  · simp only [serializeAddress]
    rw [if_neg (by omega)]

/-- Claim C9 (confirmed): address parsing.  For every 40-character hex
string `h`, `serializeAddress` of `0x ++ h` and of `sync: ++ h` succeed
and return the same 20-byte buffer; `serializeAddress` fails with the
bad-prefix error on every string starting with neither prefix, and fails
with the bad-length error whenever the bytes decoded from the
prefix-stripped remainder do not have length exactly 20. -/
theorem claim_C9_serializeAddress_spec :
    (∀ h40 : List Char, h40.length = 40 →
      (∀ c ∈ h40, (hexDigitVal? c).isSome = true) →
      ∃ bs, serializeAddress ('0' :: 'x' :: h40) = .ok bs ∧
        serializeAddress ('s' :: 'y' :: 'n' :: 'c' :: ':' :: h40) = .ok bs ∧
        bs.length = 20)
    ∧ (∀ s : List Char, (∀ r, s ≠ '0' :: 'x' :: r) →
        (∀ r, s ≠ 's' :: 'y' :: 'n' :: 'c' :: ':' :: r) →
        serializeAddress s = .error .badAddressPrefix)
    ∧ (∀ r : List Char, (decodeHex r).length ≠ 20 →
        serializeAddress ('0' :: 'x' :: r) = .error .badAddressLength ∧
        serializeAddress ('s' :: 'y' :: 'n' :: 'c' :: ':' :: r) = .error .badAddressLength) := by
  refine ⟨?_, ?_, ?_⟩
  · intro h40 hlen hhex
    have h20 : (decodeHex h40).length = 20 :=
      decodeHex_length 20 h40 hhex (by omega)
    obtain ⟨hx, hsync⟩ := serializeAddress_hex_ok h40 h20
    exact ⟨decodeHex h40, hx, hsync, h20⟩
  · intro s hnot0x hnotsync
    unfold serializeAddress
    split
    · rename_i rest
      exact absurd rfl (hnot0x rest)
    · rename_i rest
      exact absurd rfl (hnotsync rest)
    · rfl
  · intro r hr
    constructor
    · simp only [serializeAddress]
      rw [if_pos hr]
    · simp only [serializeAddress]
      rw [if_pos hr]

/-- Claim C10 (confirmed, implicit): case-insensitive hex acceptance.
For every 40-character hex string in upper, lower or mixed case, with
either prefix, `serializeAddress` succeeds and returns the same 20 bytes
as for the all-lowercase form of the string. -/
theorem claim_C10_serializeAddress_case_insensitive :
    ∀ h40 : List Char, h40.length = 40 →
      (∀ c ∈ h40, (hexDigitVal? c).isSome = true) →
      ∃ bs, serializeAddress ('0' :: 'x' :: h40) = .ok bs ∧
        serializeAddress ('0' :: 'x' :: h40.map Char.toLower) = .ok bs ∧
        serializeAddress ('s' :: 'y' :: 'n' :: 'c' :: ':' :: h40) = .ok bs ∧
        serializeAddress ('s' :: 'y' :: 'n' :: 'c' :: ':' :: h40.map Char.toLower)
          = .ok bs ∧
        bs.length = 20 := by
  intro h40 hlen hhex
  have h20 : (decodeHex h40).length = 20 :=
    decodeHex_length 20 h40 hhex (by omega)
  have hmap : decodeHex (h40.map Char.toLower) = decodeHex h40 :=
    decodeHex_map_toLower h40 hhex
  obtain ⟨hx, hsync⟩ := serializeAddress_hex_ok h40 h20
  obtain ⟨hxl, hsyncl⟩ := serializeAddress_hex_ok (h40.map Char.toLower)
    (by rw [hmap]; exact h20)
  rw [hmap] at hxl hsyncl
  exact ⟨decodeHex h40, hx, hxl, hsync, hsyncl, h20⟩

/-- Witness for C1 at the packable value 1000 (both widths). -/
theorem claim_C1_witness :
    (∃ buf, packAmountChecked 1000 = .ok buf ∧ floatToInteger buf 5 35 10 = .ok 1000) ∧
    (∃ buf, packFeeChecked 1000 = .ok buf ∧ floatToInteger buf 5 11 10 = .ok 1000) :=
  ⟨claim_C1_packChecked_roundTrip.1 1000 (by norm_num) rfl, claim_C1_packChecked_roundTrip.2 1000 (by norm_num) rfl⟩

/-- Witness for C2 at v = 1000000003 (both widths). -/
theorem claim_C2_witness :
    (∃ e, (∀ j < e, 2 ^ 35 - 1 < 1000000003 / 10 ^ j) ∧
      1000000003 / 10 ^ e ≤ 2 ^ 35 - 1 ∧
      closestPackableTransactionAmount 1000000003
        = .ok ((1000000003 / 10 ^ e) * 10 ^ e)) ∧
    (∃ e, (∀ j < e, 2 ^ 11 - 1 < 1000000003 / 10 ^ j) ∧
      1000000003 / 10 ^ e ≤ 2 ^ 11 - 1 ∧
      closestPackableTransactionFee 1000000003
        = .ok ((1000000003 / 10 ^ e) * 10 ^ e)) :=
  ⟨claim_C2_closest_characterization.1 1000000003 (by norm_num), claim_C2_closest_characterization.2 1000000003 (by norm_num)⟩

/-- Witness for C3 at the buffer `[1, 2]`, index 0. -/
theorem claim_C3_witness :
    (reverseBits [1, 2]).getD 0 0 = [1, 2].getD ([1, 2].length - 1 - 0) 0 :=
  (claim_C3_reverseBits_byte_reversal [1, 2]).2 0 (by norm_num)

/-- Witness for C4: both layouts at the all-zero address, token 0,
amount 0, fee 0, nonce 0. -/
theorem claim_C4_witness :
    transferMsgBytes ('0' :: 'x' :: List.replicate 40 '0')
        ('0' :: 'x' :: List.replicate 40 '0') 0 0 0 0
      = .ok ([5] ++ List.replicate 20 0 ++ List.replicate 20 0 ++ [0, 0] ++
          [0, 0, 0, 0, 0] ++ [0, 0] ++ [0, 0, 0, 0]) ∧
    withdrawMsgBytes ('0' :: 'x' :: List.replicate 40 '0')
        ('0' :: 'x' :: List.replicate 40 '0') 0 0 0 0
      = .ok ([3] ++ List.replicate 20 0 ++ List.replicate 20 0 ++ [0, 0] ++
          List.replicate 16 0 ++ [0, 0] ++ [0, 0, 0, 0]) :=
  ⟨(claim_C4_message_layout.1 ('0' :: 'x' :: List.replicate 40 '0')
      ('0' :: 'x' :: List.replicate 40 '0') 0 0 0 0
      (List.replicate 20 0) (List.replicate 20 0) [0, 0] [0, 0, 0, 0, 0] [0, 0]
      [0, 0, 0, 0] rfl rfl rfl rfl rfl rfl).1,
   (claim_C4_message_layout.2 ('0' :: 'x' :: List.replicate 40 '0')
      ('0' :: 'x' :: List.replicate 40 '0') 0 0 0 0
      (List.replicate 20 0) (List.replicate 20 0) [0, 0] (List.replicate 16 0) [0, 0]
      [0, 0, 0, 0] rfl rfl rfl rfl rfl rfl).1⟩

/-- Witness for C6 at x = 1000000003 (both widths). -/
theorem claim_C6_witness :
    (∃ y, closestPackableTransactionAmount 1000000003 = .ok y ∧
      closestPackableTransactionAmount y = .ok y) ∧
    (∃ y, closestPackableTransactionFee 1000000003 = .ok y ∧
      closestPackableTransactionFee y = .ok y) :=
  ⟨claim_C6_closest_idempotent.1 1000000003 (by norm_num), claim_C6_closest_idempotent.2 1000000003 (by norm_num)⟩

/-- Witness for C7 at the amount width and the maximal encodable value. -/
theorem claim_C7_witness :
    ∃ buf, integerToFloat ((2 ^ 35 - 1) * 10 ^ 31) 5 35 10 = .ok buf ∧
      buf.length = (5 + 35) / 8 :=
  (claim_C7_encoding_overflow 5 35 ((2 ^ 35 - 1) * 10 ^ 31)).2 (by norm_num) (by norm_num)

/-- Witness for C9: 40 zeros with both prefixes; a prefixless string;
an empty remainder. -/
theorem claim_C9_witness :
    (∃ bs, serializeAddress ('0' :: 'x' :: List.replicate 40 '0') = .ok bs ∧
      serializeAddress ('s' :: 'y' :: 'n' :: 'c' :: ':' :: List.replicate 40 '0')
        = .ok bs ∧ bs.length = 20) ∧
    serializeAddress ['a'] = .error .badAddressPrefix ∧
    (serializeAddress ('0' :: 'x' :: ([] : List Char)) = .error .badAddressLength ∧
      serializeAddress ('s' :: 'y' :: 'n' :: 'c' :: ':' :: ([] : List Char))
        = .error .badAddressLength) :=
  ⟨claim_C9_serializeAddress_spec.1 (List.replicate 40 '0') (by simp) (by decide),
   claim_C9_serializeAddress_spec.2.1 ['a'] (by intro r h; simp at h) (by intro r h; simp at h),
   claim_C9_serializeAddress_spec.2.2 [] (by decide)⟩

/-- Witness for C10 at 40 uppercase hex digits. -/
theorem claim_C10_witness :
    ∃ bs, serializeAddress ('0' :: 'x' :: List.replicate 40 'A') = .ok bs ∧
      serializeAddress ('0' :: 'x' :: (List.replicate 40 'A').map Char.toLower)
        = .ok bs ∧
      serializeAddress ('s' :: 'y' :: 'n' :: 'c' :: ':' :: List.replicate 40 'A')
        = .ok bs ∧
      serializeAddress
          ('s' :: 'y' :: 'n' :: 'c' :: ':' :: (List.replicate 40 'A').map Char.toLower)
        = .ok bs ∧
      bs.length = 20 :=
  claim_C10_serializeAddress_case_insensitive (List.replicate 40 'A') (by simp) (by decide)
